import Mathlib

/-!
Verification development for the expression-to-curve pipeline of the
tiZDemos grapher (`src/lib/mathUtils.ts` and its callers).

Strings are embedded as `List Char`.  JavaScript numbers appearing in the
marching-squares contour extractor are embedded as exact rationals extended
with the three non-finite IEEE values (`nan`, `inf`, `ninf`); the arithmetic
operations are defined only as far as the source exercises them
(add/sub/neg/mul/div/abs and the `<` comparison, all with JavaScript's
NaN/Infinity propagation rules).  The mathjs runtime (`compile`/`evaluate`)
is external to the repository and is modelled as an oracle parameter.
-/

namespace TiZ

/-- The character class matched by JavaScript `\s` (the members that can
realistically occur in entered expressions). -/
def jsWs (c : Char) : Bool :=
  c = ' ' || c = '\t' || c = '\n' || c = '\r' || c = '\x0b' || c = '\x0c' ||
  c = ' ' || c = '﻿'

/-- JavaScript line terminators, the characters `.` does not match. -/
def isLineTerm (c : Char) : Bool :=
  c = '\n' || c = '\r' || c = ' ' || c = ' '

/-- Drop a trailing run of characters satisfying `p`. -/
def dropEndWhile (p : Char → Bool) (l : List Char) : List Char :=
  (l.reverse.dropWhile p).reverse

/-- JavaScript `String.prototype.trim`. -/
def jsTrim (l : List Char) : List Char :=
  dropEndWhile jsWs (l.dropWhile jsWs)

/-- JavaScript `String.prototype.split` on a single-character separator:
`"a,,b".split(',') = ["a","","b"]`, `"".split(',') = [""]`. -/
def splitOnC (sep : Char) : List Char → List (List Char)
  | [] => [[]]
  | a :: rest =>
    let r := splitOnC sep rest
    if a = sep then [] :: r
    else
      match r with
      | [] => [[a]]
      | h :: t => (a :: h) :: t

/-- The per-character substitution performed by `normalizeExpression`'s five
global single-character replaces (`π→pi`, `÷→/`, `×→*`, `√→sqrt`,
`∞→Infinity`).  The replacement texts contain none of the five special
characters, so the five sequential global replaces of the source equal one
simultaneous character-wise substitution. -/
def specialSub (c : Char) : List Char :=
  if c = 'π' then "pi".toList
  else if c = '÷' then "/".toList
  else if c = '×' then "*".toList
  else if c = '√' then "sqrt".toList
  else if c = '∞' then "Infinity".toList
  else [c]

/-- The symbol-alias rewriting pass of `normalizeExpression`
(mathUtils.ts lines 25-29). -/
def symbolReplace (l : List Char) : List Char :=
  l.flatMap specialSub

/-- One step of the right-to-left piecewise loop (mathUtils.ts lines 38-43):
`parts[i].split(':')` destructured into condition and value, both trimmed,
and if both are truthy (non-empty), the accumulator is wrapped into
`(${condition}) ? (${value}) : (${acc})`. -/
def pwStep (part acc : List Char) : List Char :=
  match (splitOnC ':' part).map jsTrim with
  | c :: v :: _ =>
    if c ≠ [] ∧ v ≠ [] then
      '(' :: c ++ ") ? (".toList ++ v ++ ") : (".toList ++ acc ++ [')']
    else acc
  | _ => acc

/-- `normalizeExpression` (mathUtils.ts lines 21-48): symbol aliases, then —
when the trimmed text is brace-delimited — the piecewise-to-nested-ternary
rewrite built right-to-left over the comma-separated, trimmed parts, with
sentinel `null`. -/
def normalizeExpression (l : List Char) : List Char :=
  if (jsTrim (symbolReplace l)).head? = some '\x7b' ∧
      (jsTrim (symbolReplace l)).getLast? = some '\x7d' then
    ((splitOnC ','
        (((jsTrim (symbolReplace l)).drop 1).dropLast)).map jsTrim).foldr
      pwStep "null".toList
  else symbolReplace l

/-- Skip a run of `\s` characters. -/
def skipWs (l : List Char) : List Char := l.dropWhile jsWs

/-- Consume the exponent part `(?:e[+-]?\d+)?` of the numeric-literal
pattern in `parseGeometry`'s regex; if no complete exponent follows, nothing
is consumed (the group is optional). -/
def matchExpFrom (l : List Char) : List Char :=
  match l with
  | c :: r =>
    if c = 'e' || c = 'E' then
      let r1 := match r with
                | s :: r2 => if s = '+' || s = '-' then r2 else r
                | [] => r
      if r1.takeWhile Char.isDigit = [] then l
      else r1.dropWhile Char.isDigit
    else l
  | [] => []

/-- Consume one numeric literal `-?\d*\.?\d+(?:e[+-]?\d+)?` at the head of
`l`, returning the remainder on success.  The deterministic greedy parse is
match-equivalent to the regex here because every character a backtracking
engine could "give back" (a digit, `.`, `e`) can never satisfy the
pattern's follow set `\s`, `,`, `)`. -/
def matchNumFrom (l : List Char) : Option (List Char) :=
  let l1 := match l with | '-' :: r => r | _ => l
  let intPart := l1.takeWhile Char.isDigit
  let r1 := l1.dropWhile Char.isDigit
  match r1 with
  | '.' :: r2 =>
    if r2.takeWhile Char.isDigit = [] then none
    else some (matchExpFrom (r2.dropWhile Char.isDigit))
  | _ => if intPart = [] then none else some (matchExpFrom r1)

/-- Does `parseGeometry`'s point regex
`\(\s*NUM\s*,\s*NUM\s*\)` match starting exactly at the head of `l`? -/
def matchPairFrom (l : List Char) : Bool :=
  match l with
  | '(' :: r =>
    match matchNumFrom (skipWs r) with
    | none => false
    | some r1 =>
      match skipWs r1 with
      | ',' :: r2 =>
        match matchNumFrom (skipWs r2) with
        | none => false
        | some r3 =>
          match skipWs r3 with
          | ')' :: _ => true
          | _ => false
      | _ => false
  | _ => false

/-- Does the point regex match anywhere in `l`?  `parseGeometry`
(mathUtils.ts lines 111-133) returns `null` exactly when it does not; only
this null test is consumed by the classifier and by `generatePoints`'
filter, so the embedding models `parseGeometry(e) !== null` as
`hasPointPair (normalizeExpression e)` (the source normalizes its argument
before matching). -/
def hasPointPair : List Char → Bool
  | [] => false
  | c :: rest => matchPairFrom (c :: rest) || hasPointPair rest

/-- The test `/^\s*r\s*=/i` used for polar detection. -/
def polarTest (l : List Char) : Bool :=
  match l.dropWhile jsWs with
  | c :: rest =>
    (c = 'r' || c = 'R') &&
      (match rest.dropWhile jsWs with
       | '=' :: _ => true
       | _ => false)
  | [] => false

/-- Helper for `yEqTest`: `\s*=` from here. -/
def eqAfterWs (l : List Char) : Bool :=
  match l.dropWhile jsWs with
  | '=' :: _ => true
  | _ => false

/-- The test `/^\s*(y|f\(x\))\s*=/i` used to exclude `y = ...` /
`f(x) = ...` from the implicit class. -/
def yEqTest (l : List Char) : Bool :=
  match l.dropWhile jsWs with
  | 'y' :: rest => eqAfterWs rest
  | 'Y' :: rest => eqAfterWs rest
  | 'f' :: '(' :: x :: ')' :: rest => (x = 'x' || x = 'X') && eqAfterWs rest
  | 'F' :: '(' :: x :: ')' :: rest => (x = 'x' || x = 'X') && eqAfterWs rest
  | _ => false

/-- The part of the parametric test after the leading `\s*\(`: the
remaining text, with its trailing whitespace removed, must end in `)`, and
the characters before that `)` must contain a comma but no line
terminator. -/
def paramTestTail (rest1 : List Char) : Bool :=
  match rest1.getLast? with
  | some ')' =>
    (rest1.dropLast).any (fun c => c = ',') &&
      !(rest1.dropLast).any isLineTerm
  | _ => false

/-- The test `/^\s*\(.*,.*\)\s*$/` used for parametric detection: first
non-whitespace character `(`, last non-whitespace character `)`, and the
characters strictly between them contain a comma but no line terminator
(JavaScript `.` matches anything except a line terminator, and `\s*` may
absorb whitespace only outside the parentheses; the decomposition predicate
`paramRegexSpec` below is proved equivalent to this matcher). -/
def paramTest (l : List Char) : Bool :=
  match l.dropWhile jsWs with
  | '(' :: rest => paramTestTail (dropEndWhile jsWs rest)
  | _ => false

/-- The five function kinds of `FunctionType`. -/
inductive FunctionType where
  | explicitF
  | parametric
  | polar
  | implicitF
  | geometry
  deriving DecidableEq, Repr

/-- `detectFunctionType` (mathUtils.ts lines 50-66): geometry, then polar,
then parametric, then implicit (an `=` not of the `y =`/`f(x) =` shape),
else explicit.  The geometry test calls `parseGeometry` on the already
normalized text, and `parseGeometry` normalizes its argument again. -/
def detectFunctionType (expr : List Char) : FunctionType :=
  if hasPointPair (normalizeExpression (normalizeExpression expr)) then
    .geometry
  else if polarTest (normalizeExpression expr) then .polar
  else if paramTest (normalizeExpression expr) then .parametric
  else if ('=' ∈ normalizeExpression expr) ∧
      ¬ yEqTest (normalizeExpression expr) then .implicitF
  else .explicitF

/-! ## JavaScript numbers for the contour extractor -/

/-- A JavaScript number as seen by `marchSquares`: an exact rational
standing for a finite double, or one of the non-finite values `NaN`,
`Infinity`, `-Infinity`. -/
inductive JNum where
  | num (q : ℚ)
  | nan
  | inf
  | ninf
  deriving DecidableEq, Repr

/-- Is the value a finite number? -/
def JNum.isFinite : JNum → Bool
  | .num _ => true
  | _ => false

/-- JavaScript unary minus. -/
def jneg : JNum → JNum
  | .num q => .num (-q)
  | .nan => .nan
  | .inf => .ninf
  | .ninf => .inf

/-- JavaScript addition. -/
def jadd : JNum → JNum → JNum
  | .nan, _ => .nan
  | _, .nan => .nan
  | .num a, .num b => .num (a + b)
  | .inf, .ninf => .nan
  | .ninf, .inf => .nan
  | .inf, _ => .inf
  | _, .inf => .inf
  | .ninf, _ => .ninf
  | _, .ninf => .ninf

/-- JavaScript subtraction. -/
def jsub (a b : JNum) : JNum := jadd a (jneg b)

/-- JavaScript multiplication. -/
def jmul : JNum → JNum → JNum
  | .nan, _ => .nan
  | _, .nan => .nan
  | .num a, .num b => .num (a * b)
  | .inf, .num b => if b = 0 then .nan else if 0 < b then .inf else .ninf
  | .num a, .inf => if a = 0 then .nan else if 0 < a then .inf else .ninf
  | .ninf, .num b => if b = 0 then .nan else if 0 < b then .ninf else .inf
  | .num a, .ninf => if a = 0 then .nan else if 0 < a then .ninf else .inf
  | .inf, .inf => .inf
  | .inf, .ninf => .ninf
  | .ninf, .inf => .ninf
  | .ninf, .ninf => .inf

/-- JavaScript division (positive zero only: the embedded pipeline never
produces a negative zero at a division it reaches). -/
def jdiv : JNum → JNum → JNum
  | .nan, _ => .nan
  | _, .nan => .nan
  | .num a, .num b =>
    if b = 0 then (if a = 0 then .nan else if 0 < a then .inf else .ninf)
    else .num (a / b)
  | .num _, .inf => .num 0
  | .num _, .ninf => .num 0
  | .inf, .num b => if 0 ≤ b then .inf else .ninf
  | .ninf, .num b => if 0 ≤ b then .ninf else .inf
  | .inf, _ => .nan
  | .ninf, _ => .nan

/-- JavaScript `Math.abs`. -/
def jabs : JNum → JNum
  | .num q => .num |q|
  | .nan => .nan
  | .inf => .inf
  | .ninf => .inf

/-- JavaScript `<` (false whenever either side is `NaN`). -/
def jlt : JNum → JNum → Bool
  | .nan, _ => false
  | _, .nan => false
  | .num a, .num b => a < b
  | .num _, .inf => true
  | .num _, .ninf => false
  | .inf, _ => false
  | .ninf, .ninf => false
  | .ninf, _ => true

/-- JavaScript `a > b`, written in the source as `v > 0`. -/
def jgt (a b : JNum) : Bool := jlt b a

/-! ## Marching squares (mathUtils.ts lines 168-228) -/

/-- A 2-D point. -/
abbrev Pt := JNum × JNum

/-- A segment: the source pushes two-point arrays. -/
abbrev Seg := Pt × Pt

/-- The four cell edges, named as the source names its edge points. -/
inductive Edge where
  | top
  | right
  | bottom
  | left
  deriving DecidableEq, Repr

/-- The 4-bit corner-sign index (mathUtils.ts line 201):
`(v0>0?1:0) | (v1>0?2:0) | (v2>0?4:0) | (v3>0?8:0)`. -/
def cellIndexB (v0 v1 v2 v3 : JNum) : ℕ :=
  (if jgt v0 (.num 0) then 1 else 0) +
  (if jgt v1 (.num 0) then 2 else 0) +
  (if jgt v2 (.num 0) then 4 else 0) +
  (if jgt v3 (.num 0) then 8 else 0)

/-- The switch of mathUtils.ts lines 214-223: which pairs of cell edges are
connected by a segment, per corner-sign index.  Indices 5 and 10 (the
saddle configurations) get a fixed pair of segments; every index outside
1..14 produces nothing. -/
def cellEdges (idx : ℕ) : List (Edge × Edge) :=
  if idx = 1 ∨ idx = 14 then [(.left, .bottom)]
  else if idx = 2 ∨ idx = 13 then [(.bottom, .right)]
  else if idx = 3 ∨ idx = 12 then [(.left, .right)]
  else if idx = 4 ∨ idx = 11 then [(.top, .right)]
  else if idx = 5 then [(.left, .top), (.bottom, .right)]
  else if idx = 6 ∨ idx = 9 then [(.top, .bottom)]
  else if idx = 7 ∨ idx = 8 then [(.left, .top)]
  else if idx = 10 then [(.left, .bottom), (.top, .right)]
  else []

/-- The edge interpolation of mathUtils.ts lines 204-207:
`if (Math.abs(v2 - v1) < 1e-10) return p1;
 return p1 + (p2 - p1) * (-v1 / (v2 - v1));`. -/
def lerpJ (v1 v2 p1 p2 : JNum) : JNum :=
  if jlt (jabs (jsub v2 v1)) (.num ((1 : ℚ) / 10000000000)) then p1
  else jadd p1 (jmul (jsub p2 p1) (jdiv (jneg v1) (jsub v2 v1)))

/-- The four candidate segment endpoints of a cell
(mathUtils.ts lines 209-212). -/
def edgePoint (v0 v1 v2 v3 x y dx dy : JNum) : Edge → Pt
  | .top => (lerpJ v0 v1 x (jadd x dx), y)
  | .right => (jadd x dx, lerpJ v1 v2 y (jadd y dy))
  | .bottom => (lerpJ v3 v2 x (jadd x dx), jadd y dy)
  | .left => (x, lerpJ v0 v3 y (jadd y dy))

/-- The grid value at lattice point `(i, j)`: the source materializes the
table `grid[i][j] = f(xMin + i*dx, yMin + j*dy)` (mathUtils.ts lines
181-188) and the cells read exactly these values back. -/
def gridVal (f : JNum → JNum → JNum) (xMin yMin dx dy : JNum) (i j : ℕ) : JNum :=
  f (jadd xMin (jmul (.num i) dx)) (jadd yMin (jmul (.num j) dy))

/-- The segments contributed by cell `(i, j)`
(the body of the march loop, mathUtils.ts lines 191-224). -/
def cellSegs (f : JNum → JNum → JNum) (xMin yMin dx dy : JNum) (i j : ℕ) :
    List Seg :=
  let x := jadd xMin (jmul (.num i) dx)
  let y := jadd yMin (jmul (.num j) dy)
  let v0 := gridVal f xMin yMin dx dy i j
  let v1 := gridVal f xMin yMin dx dy (i + 1) j
  let v2 := gridVal f xMin yMin dx dy (i + 1) (j + 1)
  let v3 := gridVal f xMin yMin dx dy i (j + 1)
  (cellEdges (cellIndexB v0 v1 v2 v3)).map
    (fun e => (edgePoint v0 v1 v2 v3 x y dx dy e.1,
               edgePoint v0 v1 v2 v3 x y dx dy e.2))

/-- `marchSquares` (mathUtils.ts lines 168-228): row-major scan of the
`resolution × resolution` cells.  The signature's default resolution is 50;
the implicit pipeline calls it with 60. -/
def marchSquares (f : JNum → JNum → JNum) (xMin xMax yMin yMax : JNum)
    (resolution : ℕ) : List Seg :=
  (List.range resolution).flatMap fun i =>
    (List.range resolution).flatMap fun j =>
      cellSegs f xMin yMin (jdiv (jsub xMax xMin) (.num resolution))
        (jdiv (jsub yMax yMin) (.num resolution)) i j

/-- The implicit branch of `generateFunctionData` (mathUtils.ts lines
288-306): the expression text `lhs = rhs` is compiled by the external
runtime into the map `g = (x, y) ↦ lhs − rhs` with the `try/catch`
wrapper turning evaluation errors into `NaN` (all folded into the oracle
`g`), and `marchSquares` is called on the visible domain with the literal
grid resolution 60. -/
def generateFunctionDataImplicit (g : JNum → JNum → JNum)
    (xDomain yDomain : JNum × JNum) : List Seg :=
  marchSquares g xDomain.1 xDomain.2 yDomain.1 yDomain.2 60

/-! ## Explicit sampling (`generatePoints`, mathUtils.ts lines 316-370) -/

/-- What `compiled.evaluate(scope)` can hand back for one sample: a number
(finite, `NaN` or `±Infinity`), a mathjs result-set object carrying an
`entries` array (multi-statement expressions), `undefined`, or some other
non-numeric value. -/
inductive JsVal where
  | num (q : ℚ)
  | nan
  | inf
  | ninf
  | resultSet (entries : List JsVal)
  | undef
  | other

/-- One evaluation either returns a value or throws. -/
inductive EvalR where
  | ok (v : JsVal)
  | exn

/-- A compiled expression as the sampling loop uses it: the scope binds `x`
plus the fixed free-parameter map, so the evaluator is a function of the
sample abscissa alone.  `compile` itself is the external mathjs runtime,
modelled as the oracle `List Char → Option (ℚ → EvalR)` (`none` = the
grammar rejected the text and `compile` threw). -/
abbrev CompileOracle := List Char → Option (ℚ → EvalR)

/-- An entry of the expression list handed to `generatePoints`. -/
structure ExprItem where
  id : List Char
  expr : List Char
  color : List Char
  visible : Bool
  deriving DecidableEq, Repr

/-- A row of the output sample table: the shared abscissa plus, per
compiled expression in order, the sample (`none` = the `null` the source
stores for an undefined sample). -/
structure DataPointE where
  x : ℚ
  ys : List (List Char × Option ℚ)
  deriving DecidableEq, Repr

/-- The per-sample post-processing of mathUtils.ts lines 349-363: a thrown
evaluation records `null`; a result-set object is replaced by the last
element of its `entries` array; then the value is recorded iff it is a
finite number. -/
def decodeSample : EvalR → Option ℚ
  | .exn => none
  | .ok v =>
    let y := match v with
             | .resultSet entries => entries.getLast?.getD .undef
             | w => w
    match y with
    | .num q => some q
    | _ => none

/-- The filter of mathUtils.ts lines 327-330: visible, non-blank, classified
explicit, and not a geometry definition. -/
def isExplicitItem (e : ExprItem) : Bool :=
  e.visible && jsTrim e.expr ≠ [] &&
  detectFunctionType e.expr = FunctionType.explicitF &&
  !hasPointPair (normalizeExpression e.expr)

/-- The compile-once step of mathUtils.ts lines 333-342: normalize, compile
through the oracle, and drop entries whose compilation threw. -/
def compiledExprsOf (oracle : CompileOracle) (exprs : List ExprItem) :
    List (List Char × (ℚ → EvalR)) :=
  (exprs.filter isExplicitItem).filterMap fun e =>
    match oracle (normalizeExpression e.expr) with
    | some c => some (e.id, c)
    | none => none

/-- `generatePoints` (mathUtils.ts lines 316-370): a shared x-grid of
`pointCount` samples with step `(xMax - xMin)/(pointCount - 1)`; each row
holds the abscissa and one decoded sample per compiled expression.  The
whole pass is total: a per-sample failure only records `null`. -/
def generatePoints (oracle : CompileOracle) (exprs : List ExprItem)
    (xMin xMax : ℚ) (pointCount : ℕ) : List DataPointE :=
  (List.range pointCount).map fun i : ℕ =>
    { x := xMin + (i : ℚ) * ((xMax - xMin) / ((pointCount : ℚ) - 1)),
      ys := (compiledExprsOf oracle exprs).map fun p =>
        (p.1, decodeSample
          (p.2 (xMin + (i : ℚ) * ((xMax - xMin) / ((pointCount : ℚ) - 1))))) }

/-! ## Compiled-expression cache

Modelled from the spec: the Compiled-Expression Cache (spec section 4.3) is
code of the repository that is not under `src/` — the `src` snapshot's
`generatePoints` compiles afresh on every call, and only the spec and the
fuller pipeline referenced by `Graph.tsx` describe the cache.  Per the
spec: `get_or_compile(normalized_text)`; on a hit the cache is unchanged;
on a miss compile, then if size ≥ 200 evict the oldest-inserted entry
before inserting (strict FIFO on insertion order, not access order). -/

/-- Cache capacity from the spec. -/
def cacheCapacity : ℕ := 200

/-- Modelled from the spec: insertion on a cache miss — if the cache is at
capacity, evict the oldest-inserted entry (the head) before appending the
new entry at the tail. -/
def cacheInsert (st : List (α × β)) (k : α) (v : β) : List (α × β) :=
  if cacheCapacity ≤ st.length then st.drop 1 ++ [(k, v)]
  else st ++ [(k, v)]

/-- Modelled from the spec: one `get_or_compile` step over the cache state,
a key-value list in insertion order (oldest first). -/
def getOrCompile (compile : α → β) [DecidableEq α]
    (st : List (α × β)) (k : α) : β × List (α × β) :=
  match st.find? (fun p => p.1 = k) with
  | some p => (p.2, st)
  | none => (compile k, cacheInsert st k (compile k))

/-- Modelled from the spec: the cache state after serving a sequence of
normalized texts, starting empty. -/
def runCache (compile : α → β) [DecidableEq α] (ks : List α) :
    List (α × β) :=
  ks.foldl (fun st k => (getOrCompile compile st k).2) []

/-! ## Definitions following the spec's words, for comparison -/

/-- Ceiling of a rational as a natural number (zero on negatives). -/
def ceilQ (q : ℚ) : ℕ := (-(Rat.floor (-q))).toNat

/-- Modelled from the spec: the claimed per-axis contour resolution
`clamp(ceil(domainExtent/0.01), 120, 900)` (spec section 4.5). -/
def specAxisResolution (extent : ℚ) : ℕ :=
  min 900 (max 120 (ceilQ (extent / ((1 : ℚ) / 100))))

/-- Modelled from the spec: the contour extraction the claim describes, for
a square domain where both axes receive the same clamped resolution and
the 300,000-cell cap does not bind, so no proportional scale-down occurs. -/
def specContourExtraction (g : JNum → JNum → JNum)
    (xDomain yDomain : JNum × JNum) (extent : ℚ) : List Seg :=
  marchSquares g xDomain.1 xDomain.2 yDomain.1 yDomain.2
    (specAxisResolution extent)

/-- The claim's reading of the parametric rule: the whole trimmed text is
wrapped in a single outer parenthesis pair — the parenthesis opened by the
first character closes exactly at the last character — containing exactly
one comma at nesting depth one.  `wrapScan` scans the characters after the
opening parenthesis with the current depth and the count of depth-one
commas so far, returning the comma count iff the outer pair closes at the
very end. -/
def wrapScan : ℕ → ℕ → List Char → Option ℕ
  | _, _, [] => none
  | d, k, c :: rest =>
    if c = ')' then
      if d = 1 then (if rest = [] then some k else none)
      else wrapScan (d - 1) k rest
    else if c = '(' then wrapScan (d + 1) k rest
    else if c = ',' ∧ d = 1 then wrapScan d (k + 1) rest
    else wrapScan d k rest

/-- The claim's parametric shape: wrapped in a single outer parenthesis
pair containing exactly one top-level comma. -/
def specSingleWrappedOneComma (t : List Char) : Bool :=
  match jsTrim t with
  | '(' :: rest => wrapScan 1 0 rest = some 1
  | _ => false

/-! ## Concrete inputs used by the theorems -/

/-- The compiled map of the implicit expression `x = 1/1200` as the
implicit branch builds it: `lhs - (rhs)` with `x` and `y` bound. -/
def gLine : JNum → JNum → JNum := fun x _ => jsub x (.num ((1 : ℚ) / 1200))

/-- The compiled map of `(x^2+y^2)/(x^2+y^2)`; it evaluates to `0/0 = NaN`
at the origin and to `1` at every other lattice point. -/
def gDivSelf : JNum → JNum → JNum := fun x y =>
  jdiv (jadd (jmul x x) (jmul y y)) (jadd (jmul x x) (jmul y y))

/-- The external mathjs runtime modelled for the single text `x^2`:
compiling it yields the evaluator `x ↦ x·x`; every other text fails to
compile.  (The runtime is an external collaborator of the repository,
specified only as the opaque capability `compile(text) → evaluator`.) -/
def oracleX2 : CompileOracle := fun s =>
  if s = "x^2".toList then some (fun x => EvalR.ok (JsVal.num (x * x)))
  else none

/-- The expression-list entry carrying `x^2`. -/
def x2Item : ExprItem :=
  { id := "f1".toList, expr := "x^2".toList, color := "#ef4444".toList,
    visible := true }

/-! ## Helper lemmas -/

theorem length_flatMap_le {α β : Type} (l : List α) (f : α → List β) (k : ℕ)
    (h : ∀ a, (f a).length ≤ k) : (l.flatMap f).length ≤ l.length * k := by
  induction l with
  | nil => simp
  | cons a t ih =>
    simp only [List.flatMap_cons, List.length_append, List.length_cons]
    calc (f a).length + (t.flatMap f).length ≤ k + t.length * k :=
          Nat.add_le_add (h a) ih
      _ = (t.length + 1) * k := by ring

theorem cellEdges_length_le (idx : ℕ) : (cellEdges idx).length ≤ 2 := by
  unfold cellEdges
  split_ifs <;> simp

theorem cellSegs_length_le (f : JNum → JNum → JNum) (xMin yMin dx dy : JNum)
    (i j : ℕ) : (cellSegs f xMin yMin dx dy i j).length ≤ 2 := by
  unfold cellSegs
  simpa using cellEdges_length_le _

/-! ## C1 — contour grid resolution policy -/

set_option maxRecDepth 2000000 in
/-- C1 (corrected), counterexample: the claim says the per-axis resolution
is `clamp(ceil(domainExtent/0.01), 120, 900)`, always within `[120, 900]`.
On the `0.1 × 0.1` domain that formula gives 120 per axis (and
`120 · 120 ≤ 300000`, so the claimed proportional scale-down would not
trigger), yet extraction with the code's constant resolution 60 produces a
different segment list than extraction at the claimed resolution, and the
code's 60 does not lie in `[120, 900]`. -/
theorem c1_resolution_counterexample :
    generateFunctionDataImplicit gLine (.num 0, .num ((1 : ℚ) / 10))
        (.num 0, .num ((1 : ℚ) / 10)) ≠
      specContourExtraction gLine (.num 0, .num ((1 : ℚ) / 10))
        (.num 0, .num ((1 : ℚ) / 10)) ((1 : ℚ) / 10 - 0) ∧
    specAxisResolution ((1 : ℚ) / 10 - 0) = 120 ∧
    specAxisResolution ((1 : ℚ) / 10 - 0) *
      specAxisResolution ((1 : ℚ) / 10 - 0) ≤ 300000 ∧
    ¬ (120 ≤ 60 ∧ (60 : ℕ) ≤ 900) := by
  have hres : specAxisResolution ((1 : ℚ) / 10 - 0) = 120 := by
    with_unfolding_all rfl
  refine ⟨?_, hres, by rw [hres]; decide, by decide⟩
  intro h
  have h60 : (generateFunctionDataImplicit gLine (.num 0, .num ((1 : ℚ) / 10))
      (.num 0, .num ((1 : ℚ) / 10))).head? =
      some ((.num ((1 : ℚ) / 1200), .num 0),
            (.num ((1 : ℚ) / 1200), .num ((1 : ℚ) / 600))) := by
    with_unfolding_all rfl
  have h120 : (specContourExtraction gLine (.num 0, .num ((1 : ℚ) / 10))
      (.num 0, .num ((1 : ℚ) / 10)) ((1 : ℚ) / 10 - 0)).head? =
      some ((.num ((1 : ℚ) / 1200), .num 0),
            (.num ((1 : ℚ) / 1200), .num ((1 : ℚ) / 1200))) := by
    with_unfolding_all rfl
  have hh := congrArg List.head? h
  rw [h60, h120] at hh
  simp only [Option.some.injEq, Prod.mk.injEq, JNum.num.injEq] at hh
  have : (1 : ℚ) / 600 = (1 : ℚ) / 1200 := hh.2.2
  norm_num at this

/-- C1 (corrected), amended claim: for every implicit-kind expression and
every domain rectangle, the implicit pipeline runs `marchSquares` with the
constant resolution 60 per axis, independent of the domain; hence there are
3600 cells — below the 300,000 bound — and, each cell contributing at most
two segments, at most 7200 segments. -/
theorem c1_resolution_constant (g : JNum → JNum → JNum)
    (xDomain yDomain : JNum × JNum) :
    generateFunctionDataImplicit g xDomain yDomain =
      marchSquares g xDomain.1 xDomain.2 yDomain.1 yDomain.2 60 ∧
    60 * 60 ≤ 300000 ∧
    (generateFunctionDataImplicit g xDomain yDomain).length ≤ 2 * (60 * 60) := by
  refine ⟨rfl, by decide, ?_⟩
  show (marchSquares g xDomain.1 xDomain.2 yDomain.1 yDomain.2 60).length ≤ _
  unfold marchSquares
  have h := length_flatMap_le (List.range 60)
      (fun i => (List.range 60).flatMap fun j =>
        cellSegs g xDomain.1 yDomain.1
          (jdiv (jsub xDomain.2 xDomain.1) (.num (60 : ℕ)))
          (jdiv (jsub yDomain.2 yDomain.1) (.num (60 : ℕ))) i j) 120
      (fun i => by
        have h2 := length_flatMap_le (List.range 60)
            (fun j => cellSegs g xDomain.1 yDomain.1
              (jdiv (jsub xDomain.2 xDomain.1) (.num (60 : ℕ)))
              (jdiv (jsub yDomain.2 yDomain.1) (.num (60 : ℕ))) i j) 2
            (fun j => cellSegs_length_le _ _ _ _ _ _ _)
        simpa using h2)
  simpa using h

/-! ## C2 — saddle-cell topology -/

/-- C2 (corrected), counterexample: two cells both with corner-sign index 5
whose asymptotic deciders `d = v0·v2 − v1·v3` are 15 and −3 — opposite
signs, both exceeding any tiny threshold — receive the same segment-pair
topology from the code: the switch connects left–top and bottom–right for
every index-5 cell, so no decider-based choice (which would have to give
the two opposite-sign cells the two different topologies) is made. -/
theorem c2_saddle_counterexample :
    cellIndexB (.num 4) (.num (-1)) (.num 4) (.num (-1)) = 5 ∧
    cellIndexB (.num 1) (.num (-1)) (.num 1) (.num (-4)) = 5 ∧
    jsub (jmul (.num 4) (.num 4)) (jmul (.num (-1)) (.num (-1))) = .num 15 ∧
    jsub (jmul (.num 1) (.num 1)) (jmul (.num (-1)) (.num (-4))) = .num (-3) ∧
    cellEdges (cellIndexB (.num 4) (.num (-1)) (.num 4) (.num (-1))) =
      cellEdges (cellIndexB (.num 1) (.num (-1)) (.num 1) (.num (-4))) ∧
    cellEdges (cellIndexB (.num 4) (.num (-1)) (.num 4) (.num (-1))) =
      [(Edge.left, Edge.top), (Edge.bottom, Edge.right)] := by
  refine ⟨?_, ?_, ?_, ?_, ?_, ?_⟩ <;> with_unfolding_all rfl

/-- C2 (corrected), amended claim: the two saddle indices get fixed,
value-independent topologies — every index-5 cell connects left–top and
bottom–right, every index-10 cell connects left–bottom and top–right (the
complementary pairing), and no asymptotic decider or cell-center average is
consulted. -/
theorem c2_saddle_fixed_topology (v0 v1 v2 v3 : JNum) :
    (cellIndexB v0 v1 v2 v3 = 5 →
      cellEdges (cellIndexB v0 v1 v2 v3) =
        [(Edge.left, Edge.top), (Edge.bottom, Edge.right)]) ∧
    (cellIndexB v0 v1 v2 v3 = 10 →
      cellEdges (cellIndexB v0 v1 v2 v3) =
        [(Edge.left, Edge.bottom), (Edge.top, Edge.right)]) ∧
    cellEdges 5 ≠ cellEdges 10 := by
  refine ⟨fun h => by rw [h]; decide, fun h => by rw [h]; decide, by decide⟩

/-- Witness for `c2_saddle_fixed_topology` at a concrete index-5 cell. -/
theorem c2_saddle_fixed_topology_witness :
    cellIndexB (.num 2) (.num (-3)) (.num 2) (.num (-3)) = 5 ∧
    cellEdges (cellIndexB (.num 2) (.num (-3)) (.num 2) (.num (-3))) =
      [(Edge.left, Edge.top), (Edge.bottom, Edge.right)] :=
  ⟨by with_unfolding_all rfl,
   (c2_saddle_fixed_topology (.num 2) (.num (-3)) (.num 2) (.num (-3))).1
     (by with_unfolding_all rfl)⟩

/-! ## C3 — non-finite corner values -/

/-- C3 (corrected), counterexample: with the compiled map of
`(x^2+y^2)/(x^2+y^2) = …` (NaN at the origin, 1 elsewhere on the lattice)
over `[0,60]×[0,60]`, the cell whose corner is the NaN lattice point is not
skipped: it is indexed 14 and emits a segment whose left endpoint has the
non-finite ordinate NaN. -/
theorem c3_nonfinite_counterexample :
    ∃ s ∈ generateFunctionDataImplicit gDivSelf (.num 0, .num 60)
        (.num 0, .num 60), (s.1.2).isFinite = false := by
  refine ⟨((.num 0, .nan), (.num 0, .num 1)), ?_, rfl⟩
  show _ ∈ marchSquares gDivSelf (.num 0) (.num 60) (.num 0) (.num 60) 60
  unfold marchSquares
  refine List.mem_flatMap.2 ⟨0, by simp, List.mem_flatMap.2 ⟨0, by simp, ?_⟩⟩
  have h : cellSegs gDivSelf (.num 0) (.num 0)
      (jdiv (jsub (.num 60) (.num 0)) (.num ((60 : ℕ) : ℚ)))
      (jdiv (jsub (.num 60) (.num 0)) (.num ((60 : ℕ) : ℚ))) 0 0 =
      [((.num 0, .nan), (.num 0, .num 1))] := by
    with_unfolding_all rfl
  rw [h]
  exact List.mem_singleton.2 rfl

/-- C3 (corrected), amended claim: cells with a non-finite corner are not
skipped.  A NaN or −Infinity corner contributes a clear sign bit (like a
non-positive value) and a +Infinity corner a set sign bit (like a positive
value) to the cell index, and a cell with a NaN corner can still emit
segments (whose endpoints may then be non-finite). -/
theorem c3_nonfinite_corners_indexed (v1 v2 v3 : JNum) :
    cellIndexB .nan v1 v2 v3 = cellIndexB (.num 0) v1 v2 v3 ∧
    cellIndexB .ninf v1 v2 v3 = cellIndexB (.num 0) v1 v2 v3 ∧
    cellIndexB .inf v1 v2 v3 = cellIndexB (.num 1) v1 v2 v3 ∧
    cellEdges (cellIndexB .nan (.num 1) (.num 1) (.num 1)) ≠ [] := by
  refine ⟨?_, ?_, ?_, ?_⟩
  · with_unfolding_all rfl
  · with_unfolding_all rfl
  · with_unfolding_all rfl
  · have : cellEdges (cellIndexB .nan (.num 1) (.num 1) (.num 1)) =
        [(Edge.left, Edge.bottom)] := by with_unfolding_all rfl
    simp [this]

/-! ## C5 — sampling x² over [−2, 2] with five points -/

/-- C5 (confirmed): sampling the explicit expression `x^2` over `[-2, 2]`
with `pointCount = 5` produces exactly the rows
`x = -2, -1, 0, 1, 2` with samples `4, 1, 0, 1, 4`, and no sample is
recorded as undefined. -/
theorem c5_x_squared_samples :
    generatePoints oracleX2 [x2Item] (-2) 2 5 =
      [{ x := -2, ys := [("f1".toList, some 4)] },
       { x := -1, ys := [("f1".toList, some 1)] },
       { x := 0, ys := [("f1".toList, some 0)] },
       { x := 1, ys := [("f1".toList, some 1)] },
       { x := 2, ys := [("f1".toList, some 4)] }] ∧
    ∀ p ∈ generatePoints oracleX2 [x2Item] (-2) 2 5,
      ∀ pr ∈ p.ys, pr.2 ≠ none := by
  have h : generatePoints oracleX2 [x2Item] (-2) 2 5 =
      [{ x := -2, ys := [("f1".toList, some 4)] },
       { x := -1, ys := [("f1".toList, some 1)] },
       { x := 0, ys := [("f1".toList, some 0)] },
       { x := 1, ys := [("f1".toList, some 1)] },
       { x := 2, ys := [("f1".toList, some 4)] }] := by
    with_unfolding_all rfl
  refine ⟨h, ?_⟩
  rw [h]
  intro p hp pr hpr
  simp only [List.mem_cons, List.not_mem_nil, or_false] at hp
  rcases hp with rfl | rfl | rfl | rfl | rfl <;>
    · simp only [List.mem_cons, List.not_mem_nil, or_false] at hpr
      subst hpr
      simp

/-! ## C10 — shared sample grid -/

/-- C10 (confirmed): the explicit sampling pass returns exactly
`pointCount` rows, and the i-th abscissa is
`xMin + i·(xMax − xMin)/(pointCount − 1)`, for every expression list and
compile oracle — including when nothing is visible, compiles or
evaluates. -/
theorem c10_sample_grid (oracle : CompileOracle) (exprs : List ExprItem)
    (xMin xMax : ℚ) (pointCount : ℕ) (h : 2 ≤ pointCount) :
    (generatePoints oracle exprs xMin xMax pointCount).length = pointCount ∧
    ∀ i, i < pointCount →
      ((generatePoints oracle exprs xMin xMax pointCount).map
          DataPointE.x)[i]? =
        some (xMin + i * ((xMax - xMin) / ((pointCount : ℚ) - 1))) := by
  constructor
  · simp only [generatePoints, List.length_map, List.length_range]
  · intro i hi
    simp only [generatePoints, List.map_map, List.getElem?_map,
      List.getElem?_range, hi]
    rfl

/-- Witness for `c10_sample_grid`: three samples over `[0, 1]` with an
empty expression list. -/
theorem c10_sample_grid_witness :
    2 ≤ 3 ∧
    ((generatePoints oracleX2 [] 0 1 3).length = 3 ∧
     ∀ i : ℕ, i < 3 →
       ((generatePoints oracleX2 [] 0 1 3).map DataPointE.x)[i]? =
         some (0 + (i : ℚ) * ((1 - 0) / (((3 : ℕ) : ℚ) - 1)))) :=
  ⟨by decide, c10_sample_grid oracleX2 [] 0 1 3 (by decide)⟩

/-! ## C6 — per-sample error isolation -/

/-- C6 (confirmed): for every oracle, expression list, grid and sample
index, the i-th row exists and holds, per compiled expression, exactly the
decoded value of that one evaluation; the decoding records `null` when the
evaluation throws or yields a non-finite or non-numeric value and the
finite number otherwise.  The pass is a total function, so a bad sample
never aborts it, and each sample's entry depends only on its own
evaluation. -/
theorem c6_per_sample_isolation (oracle : CompileOracle)
    (exprs : List ExprItem) (xMin xMax : ℚ) (n i : ℕ) (h : i < n) :
    (generatePoints oracle exprs xMin xMax n)[i]? =
      some { x := xMin + i * ((xMax - xMin) / ((n : ℚ) - 1)),
             ys := (compiledExprsOf oracle exprs).map fun p =>
               (p.1, decodeSample
                 (p.2 (xMin + i * ((xMax - xMin) / ((n : ℚ) - 1))))) } ∧
    decodeSample .exn = none ∧
    (∀ q : ℚ, decodeSample (.ok (.num q)) = some q) ∧
    decodeSample (.ok .nan) = none ∧
    decodeSample (.ok .inf) = none ∧
    decodeSample (.ok .ninf) = none ∧
    decodeSample (.ok .undef) = none ∧
    decodeSample (.ok .other) = none := by
  refine ⟨?_, rfl, fun q => rfl, rfl, rfl, rfl, rfl, rfl⟩
  simp only [generatePoints, List.getElem?_map, List.getElem?_range, h]
  rfl

/-- Witness for `c6_per_sample_isolation`: the middle sample of `x^2` over
`[0, 2]` with three samples evaluates to `1` at `x = 1`. -/
theorem c6_per_sample_isolation_witness :
    (1 : ℕ) < 3 ∧ decodeSample .exn = none ∧
    (generatePoints oracleX2 [x2Item] 0 2 3)[1]? =
      some { x := 1, ys := [("f1".toList, some 1)] } := by
  refine ⟨by decide,
    (c6_per_sample_isolation oracleX2 [x2Item] 0 2 3 1 (by decide)).2.1, ?_⟩
  have h := (c6_per_sample_isolation oracleX2 [x2Item] 0 2 3 1 (by decide)).1
  rw [h]
  with_unfolding_all rfl

/-! ## C4 — compiled-expression cache -/

/-- What the FIFO bound keeps: everything but the oldest overflow. -/
def trimToCapacity (l : List α) : List α :=
  l.drop (l.length - cacheCapacity)

theorem cacheInsert_length_le (st : List (α × β)) (k : α) (v : β)
    (h : st.length ≤ cacheCapacity) :
    (cacheInsert st k v).length ≤ cacheCapacity := by
  have hC : 1 ≤ cacheCapacity := by decide
  unfold cacheInsert
  split_ifs with hlen
  · simp only [List.length_append, List.length_drop, List.length_cons,
      List.length_nil]
    omega
  · simp only [List.length_append, List.length_cons, List.length_nil]
    omega

theorem getOrCompile_length_le (compile : α → β) [DecidableEq α]
    (st : List (α × β)) (k : α) (h : st.length ≤ cacheCapacity) :
    ((getOrCompile compile st k).2).length ≤ cacheCapacity := by
  unfold getOrCompile
  cases hf : st.find? (fun p => p.1 = k) with
  | some p => simpa using h
  | none => exact cacheInsert_length_le st k (compile k) h

theorem foldl_cache_length (compile : α → β) [DecidableEq α]
    (ks : List α) (st : List (α × β)) (h : st.length ≤ cacheCapacity) :
    (ks.foldl (fun s k => (getOrCompile compile s k).2) st).length ≤
      cacheCapacity := by
  induction ks generalizing st with
  | nil => simpa using h
  | cons k ks ih =>
    exact ih _ (getOrCompile_length_le compile st k h)

theorem foldl_cache_fresh (compile : α → β) [DecidableEq α] (ks : List α)
    (st : List (α × β)) (hnd : ks.Nodup)
    (hfresh : ∀ k ∈ ks, ∀ p ∈ st, p.1 ≠ k)
    (hlen : st.length ≤ cacheCapacity) :
    ks.foldl (fun s k => (getOrCompile compile s k).2) st =
      trimToCapacity (st ++ ks.map fun k => (k, compile k)) := by
  induction ks generalizing st with
  | nil =>
    simp only [List.foldl_nil, List.map_nil, List.append_nil, trimToCapacity]
    rw [Nat.sub_eq_zero_of_le hlen, List.drop_zero]
  | cons k ks ih =>
    have hfind : st.find? (fun p => p.1 = k) = none := by
      rw [List.find?_eq_none]
      intro p hp
      simpa using hfresh k (by simp) p hp
    have hstep : (getOrCompile compile st k).2 =
        cacheInsert st k (compile k) := by
      unfold getOrCompile
      rw [hfind]
    simp only [List.foldl_cons, hstep]
    clear hstep
    have hk_not : k ∉ ks := (List.nodup_cons.1 hnd).1
    have hC : 1 ≤ cacheCapacity := by decide
    unfold cacheInsert
    split_ifs with hcap
    · -- the cache is full: the oldest entry is evicted first
      have hst_len : st.length = cacheCapacity := le_antisymm hlen hcap
      have hpos : 1 ≤ st.length := by omega
      rw [ih (st.drop 1 ++ [(k, compile k)]) (List.nodup_cons.1 hnd).2
          (by
            intro k' hk' p hp
            rcases List.mem_append.1 hp with hp1 | hp2
            · exact hfresh k' (by simp [hk']) p (List.mem_of_mem_drop hp1)
            · have hpk : p = (k, compile k) := by simpa using hp2
              subst hpk
              intro hc
              apply hk_not
              have hkk : k = k' := hc
              rw [hkk]
              exact hk')
          (by
            simp only [List.length_append, List.length_drop,
              List.length_cons, List.length_nil]
            omega)]
      have hassoc : (st.drop 1 ++ [(k, compile k)]) ++
          List.map (fun k => (k, compile k)) ks =
          (st ++ (k, compile k) ::
            List.map (fun k => (k, compile k)) ks).drop 1 := by
        rw [List.drop_append_of_le_length hpos]
        simp
      rw [hassoc]
      unfold trimToCapacity
      rw [List.drop_drop]
      have hidx : 1 + (((st ++ (k, compile k) ::
          List.map (fun k => (k, compile k)) ks).drop 1).length -
            cacheCapacity) =
          (st ++ (k, compile k) ::
            List.map (fun k => (k, compile k)) ks).length - cacheCapacity := by
        simp only [List.length_drop, List.length_append, List.length_cons]
        omega
      rw [hidx]
      simp only [List.map_cons]
    · rw [ih (st ++ [(k, compile k)]) (List.nodup_cons.1 hnd).2
          (by
            intro k' hk' p hp
            rcases List.mem_append.1 hp with hp1 | hp2
            · exact hfresh k' (by simp [hk']) p hp1
            · have hpk : p = (k, compile k) := by simpa using hp2
              subst hpk
              intro hc
              apply hk_not
              have hkk : k = k' := hc
              rw [hkk]
              exact hk')
          (by
            simp only [List.length_append, List.length_cons, List.length_nil]
            omega)]
      congr 1
      simp

/-- C4 (confirmed against the spec's cache): the cache never exceeds 200
entries after any request sequence, and for a sequence of 201 distinct
normalized texts starting from an empty cache, the retained keys are
exactly the last 200 in insertion order: the first-inserted key is absent
and the most recent 200 are present. -/
theorem c4_cache_fifo (compile : α → β) [DecidableEq α] :
    (∀ ks : List α, (runCache compile ks).length ≤ cacheCapacity) ∧
    ∀ ks : List α, ks.Nodup → ks.length = 201 →
      (runCache compile ks).map Prod.fst = ks.drop 1 ∧
      ∀ k ∈ ks.take 1, k ∉ (runCache compile ks).map Prod.fst := by
  constructor
  · intro ks
    exact foldl_cache_length compile ks [] (by simp)
  · intro ks hnd hlen
    have h : runCache compile ks =
        trimToCapacity (ks.map fun k => (k, compile k)) := by
      unfold runCache
      rw [foldl_cache_fresh compile ks [] hnd (by simp) (by simp)]
      simp
    have hkeys : (runCache compile ks).map Prod.fst = ks.drop 1 := by
      rw [h]
      unfold trimToCapacity
      rw [List.map_drop, List.map_map, List.length_map, hlen]
      have hcomp : (Prod.fst ∘ fun k : α => (k, compile k)) = id := rfl
      rw [hcomp, List.map_id]
      have h201 : (201 : ℕ) - cacheCapacity = 1 := by decide
      rw [h201]
    refine ⟨hkeys, ?_⟩
    intro k hk
    rw [hkeys]
    cases ks with
    | nil => simp at hlen
    | cons k0 rest =>
      simp only [List.take_succ_cons, List.take_zero, List.mem_singleton] at hk
      subst hk
      simpa using (List.nodup_cons.1 hnd).1

/-- Witness for `c4_cache_fifo`: 201 distinct keys `0, …, 200`; key `0` is
evicted and keys `1, …, 200` remain, in order. -/
theorem c4_cache_fifo_witness :
    (List.range 201).Nodup ∧ (List.range 201).length = 201 ∧
    (runCache (fun k : ℕ => k) (List.range 201)).map Prod.fst =
      (List.range 201).drop 1 ∧
    0 ∉ (runCache (fun k : ℕ => k) (List.range 201)).map Prod.fst := by
  have h := (c4_cache_fifo (fun k : ℕ => k)).2 (List.range 201)
    (List.nodup_range 201) (by simp)
  exact ⟨List.nodup_range 201, by simp, h.1, h.2 0 (by decide)⟩

/-! ## C8 — idempotence of normalization -/

/-- The five characters rewritten by the symbol-alias pass. -/
def isSpecial (c : Char) : Bool :=
  c = 'π' || c = '÷' || c = '×' || c = '√' || c = '∞'

/-- No character of the list is one of the five rewritten symbols. -/
def noSpecialL (l : List Char) : Prop := ∀ c ∈ l, isSpecial c = false

theorem specialSub_eq_self (c : Char) (h : isSpecial c = false) :
    specialSub c = [c] := by
  simp only [isSpecial, Bool.or_eq_false_iff, decide_eq_false_iff_not] at h
  unfold specialSub
  rw [if_neg h.1.1.1.1, if_neg h.1.1.1.2, if_neg h.1.1.2, if_neg h.1.2,
    if_neg h.2]

theorem noSpecialL_specialSub (c : Char) : noSpecialL (specialSub c) := by
  unfold specialSub
  split_ifs with h1 h2 h3 h4 h5
  · intro x hx; fin_cases hx <;> rfl
  · intro x hx; fin_cases hx <;> rfl
  · intro x hx; fin_cases hx <;> rfl
  · intro x hx; fin_cases hx <;> rfl
  · intro x hx; fin_cases hx <;> rfl
  · intro x hx
    simp only [List.mem_singleton] at hx
    subst hx
    simp [isSpecial, h1, h2, h3, h4, h5]

theorem noSpecialL_symbolReplace (l : List Char) :
    noSpecialL (symbolReplace l) := by
  intro c hc
  unfold symbolReplace at hc
  rcases List.mem_flatMap.1 hc with ⟨a, _, hca⟩
  exact noSpecialL_specialSub a c hca

theorem symbolReplace_id (l : List Char) (h : noSpecialL l) :
    symbolReplace l = l := by
  induction l with
  | nil => rfl
  | cons a t ih =>
    unfold symbolReplace
    rw [List.flatMap_cons, specialSub_eq_self a (h a (by simp))]
    show a :: symbolReplace t = a :: t
    rw [ih fun c hc => h c (by simp [hc])]

theorem mem_of_mem_jsTrim {c : Char} {l : List Char} (h : c ∈ jsTrim l) :
    c ∈ l := by
  unfold jsTrim dropEndWhile at h
  rw [List.mem_reverse] at h
  have h2 := (List.dropWhile_sublist (l := (l.dropWhile jsWs).reverse)
    (p := jsWs)).subset h
  rw [List.mem_reverse] at h2
  exact (List.dropWhile_sublist (l := l) (p := jsWs)).subset h2

theorem mem_of_mem_splitOnC (sep : Char) :
    ∀ (l p : List Char), p ∈ splitOnC sep l → ∀ c ∈ p, c ∈ l := by
  intro l
  induction l with
  | nil =>
    intro p hp c hc
    simp only [splitOnC, List.mem_singleton] at hp
    subst hp
    simp at hc
  | cons a rest ih =>
    intro p hp c hc
    simp only [splitOnC] at hp
    by_cases ha : a = sep
    · rw [if_pos ha] at hp
      rcases List.mem_cons.1 hp with rfl | hp2
      · simp at hc
      · exact List.mem_cons_of_mem a (ih p hp2 c hc)
    · rw [if_neg ha] at hp
      cases hr : splitOnC sep rest with
      | nil =>
        rw [hr] at hp
        simp only [List.mem_singleton] at hp
        subst hp
        simp only [List.mem_singleton] at hc
        subst hc
        exact List.mem_cons_self _ _
      | cons h t =>
        rw [hr] at hp
        rcases List.mem_cons.1 hp with rfl | hp2
        · rcases List.mem_cons.1 hc with rfl | hc2
          · exact List.mem_cons_self _ _
          · refine List.mem_cons_of_mem a (ih h ?_ c hc2)
            rw [hr]
            exact List.mem_cons_self _ _
        · refine List.mem_cons_of_mem a (ih p ?_ c hc)
          rw [hr]
          exact List.mem_cons_of_mem h hp2

theorem noSpecialL_of_sub {l m : List Char} (hsub : ∀ c ∈ m, c ∈ l)
    (h : noSpecialL l) : noSpecialL m :=
  fun c hc => h c (hsub c hc)

theorem noSpecialL_pwFoldr (parts : List (List Char)) (acc : List Char)
    (hp : ∀ p ∈ parts, noSpecialL p) (ha : noSpecialL acc) :
    noSpecialL (parts.foldr pwStep acc) := by
  induction parts with
  | nil => simpa using ha
  | cons p parts ih =>
    have hacc : noSpecialL (parts.foldr pwStep acc) :=
      ih fun q hq => hp q (by simp [hq])
    simp only [List.foldr_cons]
    unfold pwStep
    cases hm : (splitOnC ':' p).map jsTrim with
    | nil => exact hacc
    | cons cnd comps =>
      cases comps with
      | nil => exact hacc
      | cons v rest =>
        dsimp only
        split_ifs with hcv
        · -- the glued conditional: every character comes from the glue,
          -- from the trimmed split pieces of `p`, or from the accumulator
          have hcnd : noSpecialL cnd := by
            have hmem : cnd ∈ (splitOnC ':' p).map jsTrim := by
              rw [hm]; exact List.mem_cons_self _ _
            rcases List.mem_map.1 hmem with ⟨q, hq, rfl⟩
            exact noSpecialL_of_sub
              (fun c hc => mem_of_mem_splitOnC ':' p q hq c
                (mem_of_mem_jsTrim hc)) (hp p (by simp))
          have hv : noSpecialL v := by
            have hmem : v ∈ (splitOnC ':' p).map jsTrim := by
              rw [hm]
              exact List.mem_cons_of_mem _ (List.mem_cons_self _ _)
            rcases List.mem_map.1 hmem with ⟨q, hq, rfl⟩
            exact noSpecialL_of_sub
              (fun c hc => mem_of_mem_splitOnC ':' p q hq c
                (mem_of_mem_jsTrim hc)) (hp p (by simp))
          intro c hc
          rcases List.mem_cons.1 hc with rfl | hc1
          · rfl
          rcases List.mem_append.1 hc1 with hc2 | hc2
          · rcases List.mem_append.1 hc2 with hc3 | hc3
            · rcases List.mem_append.1 hc3 with hc4 | hc4
              · rcases List.mem_append.1 hc4 with hc5 | hc5
                · rcases List.mem_append.1 hc5 with hc6 | hc6
                  · exact hcnd c hc6
                  · fin_cases hc6 <;> rfl
                · exact hv c hc5
              · fin_cases hc4 <;> rfl
            · exact hacc c hc3
          · fin_cases hc2 <;> rfl
        · exact hacc

theorem pwFoldr_head (parts : List (List Char)) (acc : List Char)
    (h : acc.head? = some 'n' ∨ acc.head? = some '(') :
    (parts.foldr pwStep acc).head? = some 'n' ∨
      (parts.foldr pwStep acc).head? = some '(' := by
  induction parts with
  | nil => simpa using h
  | cons p parts ih =>
    simp only [List.foldr_cons]
    unfold pwStep
    cases hm : (splitOnC ':' p).map jsTrim with
    | nil => exact ih
    | cons cnd comps =>
      cases comps with
      | nil => exact ih
      | cons v rest =>
        dsimp only
        split_ifs with hcv
        · right; rfl
        · exact ih

theorem dropWhile_append_singleton {p : Char → Bool} {c : Char}
    (hc : p c = false) (xs : List Char) :
    (xs ++ [c]).dropWhile p = xs.dropWhile p ++ [c] := by
  rw [List.dropWhile_append]
  split_ifs with h
  · rw [List.isEmpty_iff] at h
    rw [h, List.dropWhile_cons, hc]
    simp
  · rfl

theorem jsTrim_cons_head {c : Char} (l : List Char) (h : jsWs c = false) :
    (jsTrim (c :: l)).head? = some c := by
  unfold jsTrim dropEndWhile
  rw [List.dropWhile_cons, h]
  simp only [Bool.false_eq_true, if_false, List.reverse_cons]
  rw [dropWhile_append_singleton h]
  simp

/-- Normalization fixes its own output: the symbol pass removes every
special character and introduces none, and the piecewise rewrite, when it
fires, produces a text beginning with `n` (the sentinel `null`) or `(`,
which the brace test can never match again. -/
theorem normalizeExpression_idem (e : List Char) :
    normalizeExpression (normalizeExpression e) = normalizeExpression e := by
  have hns : noSpecialL (symbolReplace e) := noSpecialL_symbolReplace e
  by_cases hb : (jsTrim (symbolReplace e)).head? = some '\x7b' ∧
      (jsTrim (symbolReplace e)).getLast? = some '\x7d'
  · -- the piecewise rewrite fired: its output starts with `n` or `(`
    have hout : normalizeExpression e =
        ((splitOnC ','
            (((jsTrim (symbolReplace e)).drop 1).dropLast)).map jsTrim).foldr
          pwStep "null".toList := by
      unfold normalizeExpression
      rw [if_pos hb]
    have hnsr : noSpecialL (normalizeExpression e) := by
      rw [hout]
      refine noSpecialL_pwFoldr _ _ ?_ (fun c hc => by fin_cases hc <;> rfl)
      intro q hq
      rcases List.mem_map.1 hq with ⟨q0, hq0, rfl⟩
      refine noSpecialL_of_sub (fun c hc => ?_) hns
      have h1 := mem_of_mem_splitOnC ',' _ q0 hq0 c (mem_of_mem_jsTrim hc)
      have h2 := (List.dropLast_sublist _).subset h1
      have h3 := List.drop_subset 1 _ h2
      exact mem_of_mem_jsTrim h3
    have hhead : (normalizeExpression e).head? = some 'n' ∨
        (normalizeExpression e).head? = some '(' := by
      rw [hout]
      exact pwFoldr_head _ _ (by left; rfl)
    have hsr : symbolReplace (normalizeExpression e) = normalizeExpression e :=
      symbolReplace_id _ hnsr
    have hneg : ¬ ((jsTrim (normalizeExpression e)).head? = some '\x7b' ∧
        (jsTrim (normalizeExpression e)).getLast? = some '\x7d') := by
      intro hcontra
      rcases hhead with hh | hh <;>
      · cases hne : normalizeExpression e with
        | nil => rw [hne] at hh; simp at hh
        | cons c0 rest =>
          rw [hne] at hh
          simp only [List.head?_cons, Option.some.injEq] at hh
          subst hh
          rw [hne] at hcontra
          rw [jsTrim_cons_head rest (by decide)] at hcontra
          simp at hcontra
    conv_lhs => rw [normalizeExpression]
    rw [hsr, if_neg hneg]
  · -- only the symbol pass applies
    have hout : normalizeExpression e = symbolReplace e := by
      unfold normalizeExpression
      rw [if_neg hb]
    rw [hout]
    unfold normalizeExpression
    rw [symbolReplace_id _ hns, if_neg hb]

/-- C8 (confirmed): expression normalization is idempotent — for every
input string `e`, `normalize (normalize e) = normalize e`. -/
theorem c8_normalize_idempotent (e : List Char) :
    normalizeExpression (normalizeExpression e) = normalizeExpression e :=
  normalizeExpression_idem e

/-! ## C9 — any (number, number) pair forces the Geometry kind -/

/-- C9 (confirmed): whenever the normalized text contains a substring
matching the point regex `(number, number)`, the classifier returns
Geometry, regardless of any other content — the geometry test runs first
and `parseGeometry` re-normalizes the already-normalized text, which by
idempotence changes nothing. -/
theorem c9_point_pair_forces_geometry (t : List Char)
    (h : hasPointPair (normalizeExpression t) = true) :
    detectFunctionType t = .geometry := by
  unfold detectFunctionType
  rw [normalizeExpression_idem t, if_pos h]

/-- Witness for `c9_point_pair_forces_geometry`: the spec's example
`sin(x) + (1, 2)` is classified Geometry, not Explicit. -/
theorem c9_point_pair_forces_geometry_witness :
    hasPointPair (normalizeExpression "sin(x) + (1, 2)".toList) = true ∧
    detectFunctionType "sin(x) + (1, 2)".toList = .geometry :=
  ⟨by decide, c9_point_pair_forces_geometry _ (by decide)⟩

/-! ## C7 — the parametric rule -/

/-- The backtracking semantics of `/^\s*\(.*,.*\)\s*$/` as an existential
decomposition: whitespace, `(`, any line-terminator-free text, a comma, any
line-terminator-free text, `)`, whitespace. -/
def paramRegexSpec (t : List Char) : Prop :=
  ∃ w1 a b w2 : List Char,
    t = w1 ++ ['('] ++ a ++ [','] ++ b ++ [')'] ++ w2 ∧
    (∀ c ∈ w1, jsWs c = true) ∧ (∀ c ∈ w2, jsWs c = true) ∧
    (∀ c ∈ a, isLineTerm c = false) ∧ (∀ c ∈ b, isLineTerm c = false)

theorem dropWhile_all_append (p : Char → Bool) (w l : List Char)
    (hw : ∀ c ∈ w, p c = true) : (w ++ l).dropWhile p = l.dropWhile p := by
  induction w with
  | nil => rfl
  | cons a w ih =>
    rw [List.cons_append, List.dropWhile_cons, hw a (by simp)]
    exact ih fun c hc => hw c (by simp [hc])

theorem dropEndWhile_decomp (p : Char → Bool) (l : List Char) :
    ∃ w, l = dropEndWhile p l ++ w ∧ ∀ c ∈ w, p c = true := by
  refine ⟨(l.reverse.takeWhile p).reverse, ?_, ?_⟩
  · show l = (l.reverse.dropWhile p).reverse ++ (l.reverse.takeWhile p).reverse
    rw [← List.reverse_append, List.takeWhile_append_dropWhile,
      List.reverse_reverse]
  · intro c hc
    rw [List.mem_reverse] at hc
    exact List.mem_takeWhile_imp hc

theorem dropEndWhile_all_append (p : Char → Bool) (l w : List Char)
    (hw : ∀ c ∈ w, p c = true) :
    dropEndWhile p (l ++ w) = dropEndWhile p l := by
  unfold dropEndWhile
  rw [List.reverse_append,
    dropWhile_all_append p w.reverse _
      (fun c hc => hw c (List.mem_reverse.1 hc))]

theorem dropEndWhile_concat_not (p : Char → Bool) (l : List Char) (c : Char)
    (hc : p c = false) : dropEndWhile p (l ++ [c]) = l ++ [c] := by
  unfold dropEndWhile
  rw [List.reverse_append]
  simp only [List.reverse_cons, List.reverse_nil, List.nil_append,
    List.singleton_append, List.dropWhile_cons, hc]
  simp

/-- The operational matcher implies the decomposition. -/
theorem paramRegexSpec_of_paramTest (t : List Char)
    (h : paramTest t = true) : paramRegexSpec t := by
  unfold paramTest at h
  split at h
  case _ rest heq =>
    unfold paramTestTail at h
    split at h
    case _ heq2 =>
      rw [Bool.and_eq_true, Bool.not_eq_true'] at h
      obtain ⟨hany, hnoLT⟩ := h
      obtain ⟨w2, hrest, hw2⟩ := dropEndWhile_decomp jsWs rest
      have hne : dropEndWhile jsWs rest ≠ [] := by
        intro hnil
        rw [hnil] at heq2
        simp at heq2
      have hlast : (dropEndWhile jsWs rest).getLast hne = ')' := by
        have := List.getLast?_eq_getLast (dropEndWhile jsWs rest) hne
        rw [heq2] at this
        exact (Option.some.injEq _ _ ▸ this).symm
      have hcomma : ',' ∈ (dropEndWhile jsWs rest).dropLast := by
        rcases List.any_eq_true.1 hany with ⟨x, hx, hxc⟩
        have hx' : x = ',' := by simpa using hxc
        subst hx'
        exact hx
      obtain ⟨a, b, hab⟩ := List.append_of_mem hcomma
      have hrest1 : dropEndWhile jsWs rest = (a ++ ',' :: b) ++ [')'] := by
        conv_lhs => rw [← List.dropLast_append_getLast hne, hlast, hab]
      have hnoLT' : ∀ x ∈ a ++ ',' :: b, isLineTerm x = false := by
        intro x hx
        have hx2 : x ∈ (dropEndWhile jsWs rest).dropLast := by
          rw [hab]; exact hx
        have := List.any_eq_false.1 (by simpa using hnoLT) x hx2
        simpa using this
      refine ⟨t.takeWhile jsWs, a, b, w2, ?_, ?_, hw2, ?_, ?_⟩
      · conv_lhs => rw [← List.takeWhile_append_dropWhile (p := jsWs)
          (l := t), heq, hrest, hrest1]
        simp [List.append_assoc]
      · intro c hc
        exact List.mem_takeWhile_imp hc
      · intro c hc
        exact hnoLT' c (by simp [hc])
      · intro c hc
        exact hnoLT' c (by simp [hc])
    case _ =>
      exact absurd h (by simp)
  case _ =>
    exact absurd h (by simp)

/-- The decomposition implies the operational matcher. -/
theorem paramTest_of_paramRegexSpec (t : List Char)
    (hs : paramRegexSpec t) : paramTest t = true := by
  obtain ⟨w1, a, b, w2, ht, hw1, hw2, ha, hb⟩ := hs
  have hdw : t.dropWhile jsWs = '(' :: (a ++ [','] ++ b ++ [')'] ++ w2) := by
    rw [ht]
    rw [show w1 ++ ['('] ++ a ++ [','] ++ b ++ [')'] ++ w2 =
        w1 ++ ('(' :: (a ++ [','] ++ b ++ [')'] ++ w2)) from by
      simp [List.append_assoc]]
    rw [dropWhile_all_append jsWs w1 _ hw1, List.dropWhile_cons]
    have h0 : jsWs '(' = false := rfl
    rw [h0]
    simp
  unfold paramTest
  rw [hdw]
  show paramTestTail (dropEndWhile jsWs (a ++ [','] ++ b ++ [')'] ++ w2)) =
    true
  have hre : dropEndWhile jsWs (a ++ [','] ++ b ++ [')'] ++ w2) =
      (a ++ [','] ++ b) ++ [')'] := by
    rw [dropEndWhile_all_append jsWs _ w2 hw2]
    have hassoc : a ++ [','] ++ b ++ [')'] = (a ++ [','] ++ b) ++ [')'] := by
      simp [List.append_assoc]
    rw [hassoc]
    exact dropEndWhile_concat_not jsWs _ ')' rfl
  rw [hre]
  unfold paramTestTail
  rw [List.getLast?_concat]
  show ((((a ++ [','] ++ b) ++ [')']).dropLast).any (fun c => c = ',') &&
      !(((a ++ [','] ++ b) ++ [')']).dropLast).any isLineTerm) = true
  rw [List.dropLast_concat, Bool.and_eq_true]
  constructor
  · rw [List.any_eq_true]
    exact ⟨',', by simp, by simp⟩
  · rw [Bool.not_eq_true', List.any_eq_false]
    intro x hx
    rcases List.mem_append.1 hx with hx1 | hx2
    · rcases List.mem_append.1 hx1 with hx3 | hx4
      · simp [ha x hx3]
      · have : x = ',' := by simpa using hx4
        subst this
        simp [isLineTerm]
    · simp [hb x hx2]

/-- C7 (corrected), counterexample: `(a,b,c)` is wrapped in a single outer
parenthesis pair but contains two top-level commas, and in `(a),(b)` the
outermost parentheses do not enclose the whole text; neither is Geometry or
Polar, and the claim says neither is Parametric — yet the classifier
returns Parametric for both. -/
theorem c7_parametric_counterexample :
    detectFunctionType "(a,b,c)".toList = .parametric ∧
    specSingleWrappedOneComma "(a,b,c)".toList = false ∧
    detectFunctionType "(a),(b)".toList = .parametric ∧
    specSingleWrappedOneComma "(a),(b)".toList = false := by
  refine ⟨?_, ?_, ?_, ?_⟩ <;> decide

/-- C7 (corrected), amended claim: among normalized texts not matched by
the earlier Geometry or Polar rules, the classifier assigns Parametric
exactly to those texts of the shape "optional whitespace, `(`, any
line-terminator-free text, a comma, any line-terminator-free text, `)`,
optional whitespace" — the parentheses need not form a matched pair
enclosing the whole text, and more than one top-level comma is allowed. -/
theorem c7_parametric_characterization (t : List Char) :
    detectFunctionType t = .parametric ↔
      hasPointPair (normalizeExpression (normalizeExpression t)) = false ∧
      polarTest (normalizeExpression t) = false ∧
      paramRegexSpec (normalizeExpression t) := by
  have hiff : paramTest (normalizeExpression t) = true ↔
      paramRegexSpec (normalizeExpression t) :=
    ⟨paramRegexSpec_of_paramTest _, paramTest_of_paramRegexSpec _⟩
  unfold detectFunctionType
  split_ifs with h1 h2 h3 h4
  · simp [h1]
  · simp only [Bool.not_eq_true] at h1
    simp [h1, h2]
  · simp only [Bool.not_eq_true] at h1 h2
    simp [h1, h2, hiff.1 h3]
  · simp only [Bool.not_eq_true] at h1 h2 h3
    simp only [← hiff] at *
    simp [h1, h2, h3]
  · simp only [Bool.not_eq_true] at h1 h2 h3
    simp only [← hiff] at *
    simp [h1, h2, h3]

end TiZ
